import Mathlib

/-!
Shallow embedding of qupulse's SEQC backend (`qupulse/hardware/awgs/seqc.py`):
the `BinaryWaveform` value, the `SEQCNode` hierarchy (`WaveformPlayback`,
`Scope`, `Repeat`, `SteppingRepeat`), the sharing-detection and marking pass,
the lowering driver `loop_to_seqc`, and the code-emission walk
`to_source_code`.  Python generators are translated into functions returning
the full list of yielded lines together with the final state; the stateful
name generator is a pure function from a threaded counter, and the external
waveform-memory manager (a collaborator outside this repository) is modelled
from its interface contract.  Braces in emitted text are written with the
escapes for the brace characters.
-/

/-- Embeds `BinaryWaveform.__slots__ = ('data', 'channel_mask', 'marker_mask')`.
The numpy buffer is modelled as a list of raw sample words; equality is by
content plus both masks, exactly as `BinaryWaveform.__eq__`. -/
structure BinaryWaveform where
  data : List Nat
  channel_mask : Bool × Bool
  marker_mask : Bool × Bool
deriving DecidableEq

/-- Embeds `BinaryWaveform.__len__`: buffer length divided by the number of
active planes (`sum(channel_mask) + any(marker_mask)`).  Nat division; the
source raises `ZeroDivisionError` when no plane is active, a caller contract
breach that no claim exercises. -/
def BinaryWaveform.length (w : BinaryWaveform) : Nat :=
  w.data.length /
    ((cond w.channel_mask.1 1 0) + (cond w.channel_mask.2 1 0) +
      (cond (w.marker_mask.1 || w.marker_mask.2) 1 0))

/-- The closed sum of the four `SEQCNode` subclasses of the source:
`WaveformPlayback(waveform, shared)`, `Scope(nodes)`,
`Repeat(repetition_count, scope)`, `SteppingRepeat(node_cluster)`. -/
inductive SEQCNode where
  | WaveformPlayback (waveform : BinaryWaveform) (shared : Bool)
  | Scope (nodes : List SEQCNode)
  | Repeat (repetition_count : Nat) (scope : SEQCNode)
  | SteppingRepeat (node_cluster : List SEQCNode)

mutual
/-- Embeds the `samples` methods of all four node classes.
`SteppingRepeat.samples` evaluates `self.node_cluster[0].samples()`, which
raises `IndexError` on an empty cluster; `samples_head` returns 0 there, a
junk value reachable only outside the data-model invariant. -/
def SEQCNode.samples : SEQCNode → Nat
  | .WaveformPlayback w sh => if sh then 0 else w.length
  | .Scope ns => SEQCNode.samples_list ns
  | .Repeat _ sc => sc.samples
  | .SteppingRepeat ns => ns.length * SEQCNode.samples_head ns

/-- Embeds `sum(node.samples() for node in self.nodes)` of `Scope.samples`. -/
def SEQCNode.samples_list : List SEQCNode → Nat
  | [] => 0
  | n :: rest => n.samples + SEQCNode.samples_list rest

/-- Embeds `self.node_cluster[0].samples()`; 0 on the empty cluster where the
source raises `IndexError`. -/
def SEQCNode.samples_head : List SEQCNode → Nat
  | [] => 0
  | n :: _ => n.samples
end

mutual
/-- Embeds `iter_waveform_playbacks` of all four node classes.  A leaf
`WaveformPlayback` is represented by its `(waveform, shared)` fields, which
are exactly the slots `SEQCNode.__eq__` compares. -/
def SEQCNode.iter_waveform_playbacks : SEQCNode → List (BinaryWaveform × Bool)
  | .WaveformPlayback w sh => [(w, sh)]
  | .Scope ns => SEQCNode.iter_list ns
  | .Repeat _ sc => sc.iter_waveform_playbacks
  | .SteppingRepeat ns => SEQCNode.iter_list ns

/-- Embeds the `yield from` concatenation over a child list. -/
def SEQCNode.iter_list : List SEQCNode → List (BinaryWaveform × Bool)
  | [] => []
  | n :: rest => n.iter_waveform_playbacks ++ SEQCNode.iter_list rest
end

mutual
/-- Embeds the `same_stepping` methods.  `WaveformPlayback`: equal `shared`
flags, then content equality if shared, length equality otherwise.  `Scope`:
`type(other) is Scope and all(... zip(self.nodes, other.nodes))` — note the
source compares zipped pairs only and never the lengths, so `zip` truncation
is reproduced faithfully by `same_stepping_zip`.  `Repeat`: equal counts and
same-stepping scopes.  `SteppingRepeat`: equal cluster lengths and
same-stepping first members.  Cross-type comparisons are `false` via the
`type(...) is ...` guards. -/
def SEQCNode.same_stepping : SEQCNode → SEQCNode → Bool
  | .WaveformPlayback w sh, .WaveformPlayback w' sh' =>
      if sh then (sh == sh') && (w == w') else (sh == sh') && (w.length == w'.length)
  | .Scope ns, .Scope ms => SEQCNode.same_stepping_zip ns ms
  | .Repeat c sc, .Repeat c' sc' => (c == c') && sc.same_stepping sc'
  | .SteppingRepeat ns, .SteppingRepeat ms =>
      (ns.length == ms.length) && SEQCNode.same_stepping_head ns ms
  | _, _ => false

/-- Embeds `all(n1.same_stepping(n2) for n1, n2 in zip(...))`: the comparison
stops at the shorter list, exactly like Python's `zip`. -/
def SEQCNode.same_stepping_zip : List SEQCNode → List SEQCNode → Bool
  | n :: ns, m :: ms => n.same_stepping m && SEQCNode.same_stepping_zip ns ms
  | _, _ => true

/-- Embeds `self.node_cluster[0].same_stepping(other.node_cluster[0])`;
`false` on empty clusters, where the source raises `IndexError` (reachable
only outside the data-model invariant, and only after the two length checks
already agreed). -/
def SEQCNode.same_stepping_head : List SEQCNode → List SEQCNode → Bool
  | n :: _, m :: _ => n.same_stepping m
  | _, _ => false
end

/-- Loop of `SEQCNode._get_single_indexed_playback`: scan the playbacks,
remember the first non-shared one, and `break` (returning `None`) as soon as
a second non-shared playback is seen; the for-else returns the accumulator
when the loop completes. -/
def get_single_go : List (BinaryWaveform × Bool) → Option (BinaryWaveform × Bool) →
    Option (BinaryWaveform × Bool)
  | [], acc => acc
  | p :: ps, acc =>
      if p.2 then get_single_go ps acc
      else
        match acc with
        | none => get_single_go ps (some p)
        | some _ => none

/-- Embeds `SEQCNode._get_single_indexed_playback`: the unique non-shared
playback if there is exactly one, otherwise `None`. -/
def SEQCNode.get_single_indexed_playback (n : SEQCNode) : Option (BinaryWaveform × Bool) :=
  get_single_go n.iter_waveform_playbacks none

/-- Embeds `WaveformPlayback.samples` on an extracted `(waveform, shared)`
pair: 0 when shared, the waveform length otherwise. -/
def wp_samples (p : BinaryWaveform × Bool) : Nat := if p.2 then 0 else p.1.length

/-- Embeds `Repeat._stores_initial_pos`, called on the `Repeat` node itself
(`self.samples()` passes through to the scope, and
`self.scope._get_single_indexed_playback()` sees the same playbacks as the
node).  True iff the samples are nonzero and there is not exactly one
non-shared playback covering all of them. -/
def SEQCNode.stores_initial_pos (self : SEQCNode) : Bool :=
  let self_samples := self.samples
  if self_samples > 0 then
    match self.get_single_indexed_playback with
    | none => true
    | some p => wp_samples p != self_samples
  else false

/-- Embeds the inner loop body of `find_sharable_waveforms`: fold over
`zip(waveform_playbacks, node.iter_waveform_playbacks())`, updating
`candidates[idx] = candidates[idx] and (wf == node_wf)` and accumulating
`candidates_left` over the zipped indices only; candidate flags beyond the
shorter list are left untouched and do not feed `candidates_left`. -/
def scan_node : List Bool → List (BinaryWaveform × Bool) → List (BinaryWaveform × Bool) →
    List Bool × Bool
  | c :: cs, w :: ws, v :: vs =>
      let c' := c && (w == v)
      let r := scan_node cs ws vs
      (c' :: r.1, c' || r.2)
  | cs, _, _ => (cs, false)

/-- Embeds the outer loop of `find_sharable_waveforms` over
`islice(node_cluster, 1, None)`: short-circuit with `None` as soon as no
candidate is left after a member. -/
def find_sharable_go (wps : List (BinaryWaveform × Bool)) :
    List Bool → List SEQCNode → Option (List Bool)
  | candidates, [] => some candidates
  | candidates, node :: rest =>
      let r := scan_node candidates wps node.iter_waveform_playbacks
      if r.2 then find_sharable_go wps r.1 rest else none

/-- Embeds `find_sharable_waveforms`: candidate flags start all `True` over
the first member's playbacks.  `node_cluster[0]` raises on an empty cluster
(callers always pass clusters of at least `min_repetitions_for_for_loop ≥ 1`
members); `none` stands in for that unreachable crash. -/
def find_sharable_waveforms : List SEQCNode → Option (List Bool)
  | [] => none
  | first :: rest =>
      let wps := first.iter_waveform_playbacks
      find_sharable_go wps (List.replicate wps.length true) rest

mutual
/-- Embeds the mutation of `mark_sharable_waveforms` as a rebuild: walk the
node in playback order threading the flag list (`zip(sharable_waveforms,
node.iter_waveform_playbacks())`), setting `shared = True` where the flag is
true; leftover playbacks beyond the flags stay untouched. -/
def mark_node : SEQCNode → List Bool → SEQCNode × List Bool
  | .WaveformPlayback w sh, f :: fs => (.WaveformPlayback w (sh || f), fs)
  | .WaveformPlayback w sh, [] => (.WaveformPlayback w sh, [])
  | .Scope ns, fs =>
      let r := mark_list ns fs
      (.Scope r.1, r.2)
  | .Repeat c sc, fs =>
      let r := mark_node sc fs
      (.Repeat c r.1, r.2)
  | .SteppingRepeat ns, fs =>
      let r := mark_list ns fs
      (.SteppingRepeat r.1, r.2)

/-- List part of `mark_node`, threading the remaining flags left to right. -/
def mark_list : List SEQCNode → List Bool → List SEQCNode × List Bool
  | [], fs => ([], fs)
  | n :: rest, fs =>
      let r := mark_node n fs
      let r' := mark_list rest r.2
      (r.1 :: r'.1, r'.2)
end

/-- Embeds `mark_sharable_waveforms`: every cluster member is marked against
the same flag vector (the `zip` restarts per member). -/
def mark_sharable_waveforms (node_cluster : List SEQCNode) (sharable : List Bool) :
    List SEQCNode :=
  node_cluster.map (fun n => (mark_node n sharable).1)

/-- Embeds `Repeat.__init__` with its `assert repetition_count > 1`:
construction fails (assertion error, modelled as `none`) unless the count
exceeds 1. -/
def Repeat_init (repetition_count : Nat) (scope : SEQCNode) : Option SEQCNode :=
  if 1 < repetition_count then some (.Repeat repetition_count scope) else none

/-- Embeds `SteppingRepeat.__init__`: the source stores the cluster with no
check at all, so construction always succeeds. -/
def SteppingRepeat_init (node_cluster : List SEQCNode) : Option SEQCNode :=
  some (.SteppingRepeat node_cluster)

/-- Modelled from the spec: the external waveform-memory manager's identifier
table (spec §6), which is not part of this repository.  It records the
concatenated-buffer registrations and the shared registrations, keyed by
value equality. -/
structure WaveformMemory where
  concatenated : List BinaryWaveform
  shared : List BinaryWaveform
deriving DecidableEq

/-- First index of a waveform in a registration list, by value equality. -/
def mem_index : List BinaryWaveform → BinaryWaveform → Option Nat
  | [], _ => none
  | w :: ws, wf => if w = wf then some 0 else (mem_index ws wf).map (· + 1)

/-- Modelled from the spec: the manager's identifier for the i-th registered
concatenated waveform (the concrete spelling is the manager's choice; only
idempotence per equal value matters). -/
def concat_wave_name (i : Nat) : String := "__concat_wave_" ++ toString i

/-- Modelled from the spec: the manager's identifier for the i-th registered
shared waveform. -/
def shared_wave_name (i : Nat) : String := "__shared_wave_" ++ toString i

/-- Modelled from the spec: `waveform_manager.request_concatenated(value)`,
idempotent per equal value — a known value keeps its identifier, a new value
is appended and named after its registration index. -/
def request_concatenated (M : WaveformMemory) (wf : BinaryWaveform) :
    String × WaveformMemory :=
  match mem_index M.concatenated wf with
  | some i => (concat_wave_name i, M)
  | none => (concat_wave_name M.concatenated.length, ⟨M.concatenated ++ [wf], M.shared⟩)

/-- Modelled from the spec: `waveform_manager.request_shared(value)`,
idempotent per equal value. -/
def request_shared (M : WaveformMemory) (wf : BinaryWaveform) :
    String × WaveformMemory :=
  match mem_index M.shared wf with
  | some i => (shared_wave_name i, M)
  | none => (shared_wave_name M.shared.length, ⟨M.concatenated, M.shared ++ [wf]⟩)

/-- State threaded through emission: the position of the external
`node_name_generator` (a pure name source indexed by a counter) and the
manager's registration table. -/
structure EmitState where
  counter : Nat
  memory : WaveformMemory

/-- Embeds `SEQCNode.INDENTATION = '  '`. -/
def INDENTATION : String := "  "

mutual
/-- Embeds the `_visit_nodes` methods: request every non-shared playback from
the manager, in document order, emitting nothing. -/
def SEQCNode.visit_nodes : SEQCNode → WaveformMemory → WaveformMemory
  | .WaveformPlayback w sh, M => if sh then M else (request_concatenated M w).2
  | .Scope ns, M => SEQCNode.visit_list ns M
  | .Repeat _ sc, M => sc.visit_nodes M
  | .SteppingRepeat ns, M => SEQCNode.visit_list ns M

/-- Left-to-right `_visit_nodes` over a child list. -/
def SEQCNode.visit_list : List SEQCNode → WaveformMemory → WaveformMemory
  | [], M => M
  | n :: rest, M => SEQCNode.visit_list rest (n.visit_nodes M)
end

mutual
/-- Embeds the `to_source_code` generators, fully consumed: the produced pair
is (all yielded lines in order, final state).  Arguments mirror the source:
name source, `line_prefix`, `pos_var_name`, `advance_pos_var`, plus the
threaded state.  `WaveformPlayback`: one `playWaveform`/`playWaveformIndexed`
line, the latter followed by an advance assignment or the source's literal
no-op comment.  `Repeat`: `store_initial_pos = advance_pos_var is False or
self._stores_initial_pos()`; when storing, a `var init_pos_... = pos;`
capture line precedes the repeat header (consuming one generated name) and a
reset assignment is the first body line; the body is emitted with
`advance_pos_var=store_initial_pos`.  `SteppingRepeat`: the header carries
the `// stepping repeat` annotation, only `node_cluster[0]` is emitted
(passing the caller's advance flag through), then the remaining members go
through `_visit_nodes` in order; on an empty cluster the source raises
`IndexError` right after yielding the header, so only the header is
produced. -/
def SEQCNode.to_source_code : SEQCNode → (Nat → String) → String → String → Bool →
    EmitState → List String × EmitState
  | .WaveformPlayback w sh, _, lp, pos, adv, s =>
      if sh then
        let r := request_shared s.memory w
        ([lp ++ "playWaveform(" ++ r.1 ++ ");"], ⟨s.counter, r.2⟩)
      else
        let r := request_concatenated s.memory w
        let wf_len := toString w.length
        let play_cmd := lp ++ "playWaveformIndexed(" ++ r.1 ++ ", " ++ pos ++ ", " ++
          wf_len ++ ");"
        let advance_cmd :=
          if adv then " " ++ pos ++ " = " ++ pos ++ " + " ++ wf_len ++ ";"
          else " // advance disabled do to parent repetition"
        ([play_cmd ++ advance_cmd], ⟨s.counter, r.2⟩)
  | .Scope ns, names, lp, pos, adv, s => SEQCNode.scope_code ns names lp pos adv s
  | .Repeat c sc, names, lp, pos, adv, s =>
      let bp := lp ++ INDENTATION
      let store := (adv == false) || (SEQCNode.Repeat c sc).stores_initial_pos
      let init_pos_name := "init_pos_" ++ names s.counter
      let s₁ : EmitState := if store then ⟨s.counter + 1, s.memory⟩ else s
      let capture := if store then [lp ++ "var " ++ init_pos_name ++ " = " ++ pos ++ ";"] else []
      let header := lp ++ "repeat(" ++ toString c ++ ") \x7b"
      let reset := if store then [bp ++ pos ++ " = " ++ init_pos_name ++ ";"] else []
      let r := sc.to_source_code names bp pos store s₁
      (capture ++ header :: reset ++ r.1 ++ [lp ++ "\x7d"], r.2)
  | .SteppingRepeat ns, names, lp, pos, adv, s =>
      let bp := lp ++ INDENTATION
      let header := lp ++ "repeat(" ++ toString ns.length ++ ") \x7b // stepping repeat"
      match ns with
      | [] => ([header], s)
      | n :: rest =>
          let r := n.to_source_code names bp pos adv s
          let M₂ := SEQCNode.visit_list rest r.2.memory
          (header :: r.1 ++ [lp ++ "\x7d"], ⟨r.2.counter, M₂⟩)

/-- Embeds `Scope.to_source_code`: children in order, identical prefix,
position variable and advance flag, state threaded. -/
def SEQCNode.scope_code : List SEQCNode → (Nat → String) → String → String → Bool →
    EmitState → List String × EmitState
  | [], _, _, _, _, s => ([], s)
  | n :: rest, names, lp, pos, adv, s =>
      let r₁ := n.to_source_code names lp pos adv s
      let r₂ := SEQCNode.scope_code rest names lp pos adv r₁.2
      (r₁.1 ++ r₂.1, r₂.2)
end

/-- Modelled from the spec: the external loop tree (spec §6), read-only
during lowering; per node it exposes leafness with the leaf's waveform, the
repetition count, and the ordered children. -/
inductive Loop (α : Type) where
  | leaf (repetition_count : Nat) (waveform : α)
  | node (repetition_count : Nat) (children : List (Loop α))

/-- Repetition count of a loop node. -/
def Loop.repetition_count {α : Type} : Loop α → Nat
  | .leaf rc _ => rc
  | .node rc _ => rc

/-- Embeds the per-cluster body of the `for node_cluster in node_clusters`
loop of `loop_to_seqc`: clusters below `min_repetitions_for_for_loop` are
spliced in unfolded; otherwise, clusters reaching
`min_repetitions_for_shared_wf` run sharing detection and (`if
sharable_waveforms:`, i.e. a non-`None`, non-empty vector) marking, and the
cluster is wrapped in a single `SteppingRepeat`. -/
def process_clusters (mfl msw : Nat) : List (List SEQCNode) → List SEQCNode
  | [] => []
  | node_cluster :: rest =>
      let new_nodes :=
        if node_cluster.length < mfl then node_cluster
        else
          let marked :=
            if msw ≤ node_cluster.length then
              match find_sharable_waveforms node_cluster with
              | some flags =>
                  if flags.isEmpty then node_cluster
                  else mark_sharable_waveforms node_cluster flags
              | none => node_cluster
            else node_cluster
          [SEQCNode.SteppingRepeat marked]
      new_nodes ++ process_clusters mfl msw rest

mutual
/-- Embeds `loop_to_seqc`: `assert min_repetitions_for_for_loop <=
min_repetitions_for_shared_wf` (modelled as `none` on violation), lower the
content, then wrap it in a fixed-count repeat when the loop's own repetition
count is not 1 — via `Repeat.__init__`, whose `assert repetition_count > 1`
makes a count-0 loop fail. -/
def loop_to_seqc {α : Type} (mfl msw : Nat) (w2b : α → BinaryWaveform) (l : Loop α) :
    Option SEQCNode :=
  if mfl ≤ msw then
    match lowered_content mfl msw w2b l with
    | none => none
    | some node =>
        if l.repetition_count ≠ 1 then Repeat_init l.repetition_count node else some node
  else none
termination_by 2 * sizeOf l + 1
decreasing_by all_goals simp_wf

/-- The pre-wrap `node` of `loop_to_seqc`: a leaf lowers to a fresh
non-shared playback of the converted waveform; a single-child node lowers to
its child's lowering; a multi-child node is clustered and becomes a `Scope`;
a childless non-leaf falls into `to_node_clusters`, whose `assert len(loop) >
1` fails. -/
def lowered_content {α : Type} (mfl msw : Nat) (w2b : α → BinaryWaveform) :
    Loop α → Option SEQCNode
  | .leaf _ wf => some (.WaveformPlayback (w2b wf) false)
  | .node _ [] => none
  | .node _ [c] => loop_to_seqc mfl msw w2b c
  | .node _ (c₁ :: c₂ :: cs) =>
      match to_node_clusters mfl msw w2b (c₁ :: c₂ :: cs) with
      | none => none
      | some clusters => some (.Scope (process_clusters mfl msw clusters))
termination_by l => 2 * sizeOf l
decreasing_by all_goals (simp_wf <;> omega)

/-- Embeds `to_node_clusters` (with its `assert len(loop) > 1`): lower the
first child, then group consecutively lowered children by `same_stepping`. -/
def to_node_clusters {α : Type} (mfl msw : Nat) (w2b : α → BinaryWaveform) :
    List (Loop α) → Option (List (List SEQCNode))
  | [] => none
  | [_] => none
  | c :: cs =>
      match loop_to_seqc mfl msw w2b c with
      | none => none
      | some first => clusters_go mfl msw w2b first [first] [] cs
termination_by ls => 2 * sizeOf ls
decreasing_by all_goals (simp_wf <;> omega)

/-- The `for child in islice(loop, 1, None)` loop of `to_node_clusters`:
extend the current cluster while stepping stays compatible, otherwise close
it and start a new one; the final cluster is appended after the loop. -/
def clusters_go {α : Type} (mfl msw : Nat) (w2b : α → BinaryWaveform)
    (last_node : SEQCNode) (current_nodes : List SEQCNode)
    (node_clusters : List (List SEQCNode)) : List (Loop α) →
    Option (List (List SEQCNode))
  | [] => some (node_clusters ++ [current_nodes])
  | ch :: rest =>
      match loop_to_seqc mfl msw w2b ch with
      | none => none
      | some current_node =>
          if last_node.same_stepping current_node then
            clusters_go mfl msw w2b current_node (current_nodes ++ [current_node])
              node_clusters rest
          else
            clusters_go mfl msw w2b current_node [current_node]
              (node_clusters ++ [current_nodes]) rest
termination_by rest => 2 * sizeOf rest
decreasing_by all_goals (simp_wf <;> omega)
end

mutual
/-- Data-model invariant of spec §3, decidably: every `SteppingRepeat`
cluster is non-empty and every `Repeat` count exceeds 1, recursively. -/
def SEQCNode.well_formed : SEQCNode → Bool
  | .WaveformPlayback _ _ => true
  | .Scope ns => SEQCNode.well_formed_list ns
  | .Repeat c sc => decide (1 < c) && sc.well_formed
  | .SteppingRepeat ns => !ns.isEmpty && SEQCNode.well_formed_list ns

/-- List part of `SEQCNode.well_formed`. -/
def SEQCNode.well_formed_list : List SEQCNode → Bool
  | [] => true
  | n :: rest => n.well_formed && SEQCNode.well_formed_list rest
end

mutual
/-- Every fixed-count repeat in the tree has a count strictly greater
than 1. -/
def SEQCNode.repeat_counts_ok : SEQCNode → Bool
  | .WaveformPlayback _ _ => true
  | .Scope ns => SEQCNode.repeat_counts_ok_list ns
  | .Repeat c sc => decide (1 < c) && sc.repeat_counts_ok
  | .SteppingRepeat ns => SEQCNode.repeat_counts_ok_list ns

/-- List part of `SEQCNode.repeat_counts_ok`. -/
def SEQCNode.repeat_counts_ok_list : List SEQCNode → Bool
  | [] => true
  | n :: rest => n.repeat_counts_ok && SEQCNode.repeat_counts_ok_list rest
end

/-- Variant tag, standing in for `type(node)` of the source. -/
def SEQCNode.ctor_tag : SEQCNode → Nat
  | .WaveformPlayback _ _ => 0
  | .Scope _ => 1
  | .Repeat _ _ => 2
  | .SteppingRepeat _ => 3

/-! ### Demo values used by witnesses and counterexamples -/

/-- A one-channel waveform of length 3. -/
def bw1 : BinaryWaveform := ⟨[0, 1, 2], (true, false), (false, false)⟩

/-- A one-channel waveform of length 2, distinct from `bw1`. -/
def bw2 : BinaryWaveform := ⟨[3, 4], (true, false), (false, false)⟩

/-- A deterministic stand-in for the external unique-name generator. -/
def demo_names : Nat → String := fun i => "n" ++ toString i

/-- A manager table with nothing registered yet. -/
def empty_memory : WaveformMemory := ⟨[], []⟩

/-! ### Basic lemmas -/

/-- `samples_list` is the sum of the children's `samples`. -/
theorem samples_list_eq_sum (ns : List SEQCNode) :
    SEQCNode.samples_list ns = (ns.map SEQCNode.samples).sum := by
  induction ns with
  | nil => rfl
  | cons n rest ih => simp [SEQCNode.samples_list, ih]

/-- Strong induction on `sizeOf` for `SEQCNode`. -/
theorem SEQCNode.size_ind {P : SEQCNode → Prop}
    (h : ∀ t : SEQCNode, (∀ s : SEQCNode, sizeOf s < sizeOf t → P s) → P t) :
    ∀ t, P t := by
  have aux : ∀ k : Nat, ∀ t : SEQCNode, sizeOf t < k → P t := by
    intro k
    induction k with
    | zero => intro t ht; omega
    | succ k ih => intro t _; exact h t (fun s hs => ih s (by omega))
  intro t
  exact aux (sizeOf t + 1) t (by omega)

/-- A member of a node list is smaller than the list. -/
theorem sizeOf_lt_of_mem {n : SEQCNode} {ns : List SEQCNode} (h : n ∈ ns) :
    sizeOf n < sizeOf ns := by
  induction ns with
  | nil => exact absurd h (List.not_mem_nil n)
  | cons m rest ih =>
      rcases List.mem_cons.mp h with h' | h'
      · subst h'; simp; omega
      · have := ih h'
        simp
        omega

/-! ### C4: the `samples` accounting -/

/-- C4: `samples()` of a linear sequence is the sum of its children's
`samples()`; of a fixed-count repeat it is the child's `samples()` with no
multiplication by the count; of a cluster-stepping repeat it is the member
count times the first member's `samples()`; a shared leaf contributes 0 and a
non-shared leaf its waveform's length. -/
theorem samples_spec :
    (∀ ns : List SEQCNode, (SEQCNode.Scope ns).samples = (ns.map SEQCNode.samples).sum) ∧
    (∀ (c : Nat) (sc : SEQCNode), (SEQCNode.Repeat c sc).samples = sc.samples) ∧
    (∀ (n : SEQCNode) (rest : List SEQCNode),
      (SEQCNode.SteppingRepeat (n :: rest)).samples = (n :: rest).length * n.samples) ∧
    (∀ w : BinaryWaveform, (SEQCNode.WaveformPlayback w true).samples = 0) ∧
    (∀ w : BinaryWaveform, (SEQCNode.WaveformPlayback w false).samples = w.length) := by
  refine ⟨?_, ?_, ?_, ?_, ?_⟩
  · intro ns; simpa [SEQCNode.samples] using samples_list_eq_sum ns
  · intro c sc; simp [SEQCNode.samples]
  · intro n rest; simp [SEQCNode.samples, SEQCNode.samples_head]
  · intro w; simp [SEQCNode.samples]
  · intro w; simp [SEQCNode.samples]

/-! ### C9: constructor-time checks -/

/-- C9 counterexample: constructing a cluster-stepping repeat with an empty
member list is not rejected at construction time — `SteppingRepeat.__init__`
stores the list without any check, so the claimed immediate precondition
report does not happen. -/
theorem SteppingRepeat_init_empty_accepted :
    SteppingRepeat_init [] = some (SEQCNode.SteppingRepeat []) := rfl

/-- C9 amended: the cluster-stepping repeat constructor performs no emptiness
check at all (every list, including the empty one, is accepted; an empty
cluster only fails at later use), whereas the fixed-count repeat constructor
does check its `count > 1` precondition at construction time. -/
theorem constructor_checks_spec :
    (∀ ns : List SEQCNode, SteppingRepeat_init ns = some (SEQCNode.SteppingRepeat ns)) ∧
    (∀ (c : Nat) (sc : SEQCNode), (Repeat_init c sc).isSome = decide (1 < c)) := by
  constructor
  · intro ns; rfl
  · intro c sc
    by_cases h : 1 < c <;> simp [Repeat_init, h]

/-! ### C7: `Scope.same_stepping` does not compare lengths -/

/-- C7: the source's `Scope.same_stepping` compares only the zipped child
pairs and never the list lengths, so two linear sequences of lengths 1 and 2
whose common prefix matches are reported same-stepping — against both the
spec ("equal length and every corresponding child pair is same-stepping")
and the length-dependent offset accounting the rest of the module builds on
(`SteppingRepeat.samples` multiplies the first member's samples by the
member count, which is only sound when same-stepping members consume equal
samples). -/
theorem scope_same_stepping_length_bug :
    SEQCNode.same_stepping
      (SEQCNode.Scope [SEQCNode.WaveformPlayback bw1 false])
      (SEQCNode.Scope [SEQCNode.WaveformPlayback bw1 false,
                       SEQCNode.WaveformPlayback bw1 false]) = true := by decide

/-! ### C2: cluster-stepping repeat emission -/

/-- C2: emitting a cluster-stepping repeat yields the header line annotated
`// stepping repeat` with the member count, then exactly the first member's
lines (emitted one indentation deeper with the caller's advance flag passed
through unchanged), then the closing delimiter; no later member contributes
any line, and the remaining members' non-shared waveforms are registered
with the manager in member order through the registration pass. -/
theorem stepping_repeat_to_source_code_spec
    (n : SEQCNode) (rest : List SEQCNode) (names : Nat → String)
    (lp pos : String) (adv : Bool) (s : EmitState) :
    (SEQCNode.SteppingRepeat (n :: rest)).to_source_code names lp pos adv s =
      ((lp ++ "repeat(" ++ toString (n :: rest).length ++ ") \x7b // stepping repeat") ::
          (n.to_source_code names (lp ++ INDENTATION) pos adv s).1 ++ [lp ++ "\x7d"],
        ⟨(n.to_source_code names (lp ++ INDENTATION) pos adv s).2.counter,
          SEQCNode.visit_list rest
            (n.to_source_code names (lp ++ INDENTATION) pos adv s).2.memory⟩) := by
  simp [SEQCNode.to_source_code]

/-! ### C5: fixed-count repeat over a zero-sample body -/

/-- C5 counterexample: a count-2 repeat whose body is itself a count-2 repeat
of a shared playback has total sample count 0, yet emitting it with
advancement enabled produces a position-capture line (the body is emitted
with `advance_pos_var=store_initial_pos`, i.e. disabled, and the inner
repeat then stores because its advance flag is `False`), so the output is
not the claimed no-capture output with the body emitted advance-enabled. -/
theorem repeat_zero_samples_counterexample :
    SEQCNode.samples (SEQCNode.Repeat 2 (.Repeat 2 (.WaveformPlayback bw1 true))) = 0 ∧
    "  var init_pos_n0 = pos;" ∈
      ((SEQCNode.Repeat 2 (.Repeat 2 (.WaveformPlayback bw1 true))).to_source_code
          demo_names "" "pos" true ⟨0, empty_memory⟩).1 ∧
    ((SEQCNode.Repeat 2 (.Repeat 2 (.WaveformPlayback bw1 true))).to_source_code
        demo_names "" "pos" true ⟨0, empty_memory⟩).1 ≠
      ("repeat(2) \x7b" ::
        ((SEQCNode.Repeat 2 (.WaveformPlayback bw1 true)).to_source_code
            demo_names INDENTATION "pos" true ⟨0, empty_memory⟩).1 ++ ["\x7d"]) := by
  refine ⟨by decide, by decide, by decide⟩

/-- C5 amended: for a fixed-count repeat whose body's total sample count is
0, invoked with advancement enabled, the store decision is false, so the
node itself emits no capture declaration and no reset line — but the body is
emitted with position advancement DISABLED (the advance flag passed down is
the store decision), not left enabled as claimed. -/
theorem repeat_zero_samples_emission (c : Nat) (sc : SEQCNode) (names : Nat → String)
    (lp pos : String) (s : EmitState) (h : sc.samples = 0) :
    (SEQCNode.Repeat c sc).to_source_code names lp pos true s =
      ((lp ++ "repeat(" ++ toString c ++ ") \x7b") ::
          (sc.to_source_code names (lp ++ INDENTATION) pos false s).1 ++ [lp ++ "\x7d"],
        (sc.to_source_code names (lp ++ INDENTATION) pos false s).2) := by
  have hstore : (SEQCNode.Repeat c sc).stores_initial_pos = false := by
    simp [SEQCNode.stores_initial_pos, SEQCNode.samples, h]
  simp [SEQCNode.to_source_code, hstore]

/-- C5 witness: the amended theorem applied to a count-2 repeat of one shared
playback. -/
theorem repeat_zero_samples_emission_witness :
    SEQCNode.samples (SEQCNode.WaveformPlayback bw1 true) = 0 ∧
    (SEQCNode.Repeat 2 (.WaveformPlayback bw1 true)).to_source_code demo_names "" "pos" true
        ⟨0, empty_memory⟩ =
      (("" ++ "repeat(" ++ toString 2 ++ ") \x7b") ::
          ((SEQCNode.WaveformPlayback bw1 true).to_source_code demo_names ("" ++ INDENTATION)
              "pos" false ⟨0, empty_memory⟩).1 ++ ["" ++ "\x7d"],
        ((SEQCNode.WaveformPlayback bw1 true).to_source_code demo_names ("" ++ INDENTATION)
            "pos" false ⟨0, empty_memory⟩).2) :=
  ⟨by decide,
   repeat_zero_samples_emission 2 (.WaveformPlayback bw1 true) demo_names "" "pos"
     ⟨0, empty_memory⟩ (by decide)⟩

/-! ### C1: fixed-count repeat reset decision -/

/-- A capture declaration line can never coincide with a repeat header line
sharing the same prefix: after the common prefix one starts with `v`, the
other with `r`. -/
theorem capture_line_ne_header (lp i p c : String) :
    lp ++ "var " ++ i ++ " = " ++ p ++ ";" ≠ lp ++ "repeat(" ++ c ++ ") \x7b" := by
  intro h
  have h' := congrArg String.data h
  simp only [String.data_append, List.append_assoc] at h'
  have h'' := List.append_cancel_left h'
  simp only [List.cons_append] at h''
  injection h'' with h1 _
  exact absurd h1 (by decide)

/-- With nonzero samples, the store decision is false exactly when a sole
non-shared playback covers the whole body. -/
theorem stores_initial_pos_eq_false_iff (c : Nat) (sc : SEQCNode) (h : 0 < sc.samples) :
    ((SEQCNode.Repeat c sc).stores_initial_pos = false ↔
      ∃ p, sc.get_single_indexed_playback = some p ∧ wp_samples p = sc.samples) := by
  have hsam : (SEQCNode.Repeat c sc).samples = sc.samples := by simp [SEQCNode.samples]
  have hiter : (SEQCNode.Repeat c sc).get_single_indexed_playback =
      sc.get_single_indexed_playback := by
    simp [SEQCNode.get_single_indexed_playback, SEQCNode.iter_waveform_playbacks]
  simp only [SEQCNode.stores_initial_pos, hsam, hiter]
  rcases hps : sc.get_single_indexed_playback with _ | p
  · simp [h]
  · simp [h]

/-- The C1 property at fixed arguments: the emitted lines are the
capture/header/reset form (consuming one generated name, body advance
enabled) exactly when no sole covering indexed playback exists, and in the
sole-covering-playback case they are the plain form with the body emitted
advance-disabled. -/
def repeat_reset_prop (c : Nat) (sc : SEQCNode) (names : Nat → String) (lp pos : String)
    (s : EmitState) : Prop :=
  ((SEQCNode.Repeat c sc).to_source_code names lp pos true s =
      ((lp ++ "var " ++ ("init_pos_" ++ names s.counter) ++ " = " ++ pos ++ ";") ::
        (lp ++ "repeat(" ++ toString c ++ ") \x7b") ::
        ((lp ++ INDENTATION) ++ pos ++ " = " ++ ("init_pos_" ++ names s.counter) ++ ";") ::
        (sc.to_source_code names (lp ++ INDENTATION) pos true ⟨s.counter + 1, s.memory⟩).1 ++
          [lp ++ "\x7d"],
        (sc.to_source_code names (lp ++ INDENTATION) pos true ⟨s.counter + 1, s.memory⟩).2) ↔
    ¬ ∃ p, sc.get_single_indexed_playback = some p ∧ wp_samples p = sc.samples) ∧
  ((∃ p, sc.get_single_indexed_playback = some p ∧ wp_samples p = sc.samples) →
    (SEQCNode.Repeat c sc).to_source_code names lp pos true s =
      ((lp ++ "repeat(" ++ toString c ++ ") \x7b") ::
        (sc.to_source_code names (lp ++ INDENTATION) pos false s).1 ++ [lp ++ "\x7d"],
        (sc.to_source_code names (lp ++ INDENTATION) pos false s).2))

/-- C1: for a fixed-count repeat with nonzero total sample count emitted with
advancement enabled, the output carries a position capture immediately
before the repeat construct and a reset as the first body line iff the body
does not contain exactly one non-shared playback whose length equals the
body's total samples; when such a sole indexed playback exists no
capture/reset is emitted and the body is emitted with advancement
disabled. -/
theorem repeat_to_source_code_reset_iff (c : Nat) (sc : SEQCNode) (names : Nat → String)
    (lp pos : String) (s : EmitState) (h : 0 < sc.samples) :
    repeat_reset_prop c sc names lp pos s := by
  unfold repeat_reset_prop
  by_cases hsole : ∃ p, sc.get_single_indexed_playback = some p ∧ wp_samples p = sc.samples
  · have hs : (SEQCNode.Repeat c sc).stores_initial_pos = false :=
      (stores_initial_pos_eq_false_iff c sc h).mpr hsole
    have hemit : (SEQCNode.Repeat c sc).to_source_code names lp pos true s =
        ((lp ++ "repeat(" ++ toString c ++ ") \x7b") ::
          (sc.to_source_code names (lp ++ INDENTATION) pos false s).1 ++ [lp ++ "\x7d"],
          (sc.to_source_code names (lp ++ INDENTATION) pos false s).2) := by
      simp [SEQCNode.to_source_code, hs]
    refine ⟨?_, fun _ => hemit⟩
    rw [hemit]
    simp only [hsole, not_true_eq_false, iff_false]
    intro heq
    have h1 := congrArg (fun q => q.1.head?) heq
    simp only [List.head?_cons] at h1
    have h2 : (lp ++ "repeat(" ++ toString c ++ ") \x7b") =
        (lp ++ "var " ++ ("init_pos_" ++ names s.counter) ++ " = " ++ pos ++ ";") :=
      Option.some.inj h1
    exact capture_line_ne_header lp ("init_pos_" ++ names s.counter) pos (toString c) h2.symm
  · have hs : (SEQCNode.Repeat c sc).stores_initial_pos = true := by
      rcases Bool.eq_false_or_eq_true ((SEQCNode.Repeat c sc).stores_initial_pos) with h' | h'
      · exact h'
      · exact absurd ((stores_initial_pos_eq_false_iff c sc h).mp h') hsole
    have hemit : (SEQCNode.Repeat c sc).to_source_code names lp pos true s =
        ((lp ++ "var " ++ ("init_pos_" ++ names s.counter) ++ " = " ++ pos ++ ";") ::
          (lp ++ "repeat(" ++ toString c ++ ") \x7b") ::
          ((lp ++ INDENTATION) ++ pos ++ " = " ++ ("init_pos_" ++ names s.counter) ++ ";") ::
          (sc.to_source_code names (lp ++ INDENTATION) pos true ⟨s.counter + 1, s.memory⟩).1 ++
            [lp ++ "\x7d"],
          (sc.to_source_code names (lp ++ INDENTATION) pos true
            ⟨s.counter + 1, s.memory⟩).2) := by
      simp [SEQCNode.to_source_code, hs]
    exact ⟨by simp [hemit, hsole], fun hso => absurd hso hsole⟩

/-- C1 witness: the theorem applied to a repeat whose body has two indexed
playbacks (no sole covering playback, so the capture/reset form applies). -/
theorem repeat_to_source_code_reset_iff_witness :
    repeat_reset_prop 2
      (SEQCNode.Scope [SEQCNode.WaveformPlayback bw1 false, SEQCNode.WaveformPlayback bw2 false])
      demo_names "" "pos" ⟨0, empty_memory⟩ :=
  repeat_to_source_code_reset_iff 2
    (SEQCNode.Scope [SEQCNode.WaveformPlayback bw1 false, SEQCNode.WaveformPlayback bw2 false])
    demo_names "" "pos" ⟨0, empty_memory⟩ (by decide)

/-! ### C3: sharing detection -/

/-- C3 counterexample: a cluster of two identical members with zero leaf
playback positions agrees at every position, yet `find_sharable_waveforms`
returns the no-sharing `None` (the loop over the second member finds no
candidate left, because `candidates_left` starts `False` and the zip is
empty) instead of the claimed all-true vector. -/
theorem find_sharable_empty_positions_counterexample :
    find_sharable_waveforms [SEQCNode.Scope [], SEQCNode.Scope []] = none ∧
    find_sharable_waveforms [SEQCNode.Scope [], SEQCNode.Scope []] ≠
      some (List.replicate (SEQCNode.Scope []).iter_waveform_playbacks.length true) := by
  exact ⟨by decide, by decide⟩

/-- `scan_node` never changes the number of candidate flags. -/
theorem scan_node_length : ∀ (cs : List Bool) (ws vs : List (BinaryWaveform × Bool)),
    (scan_node cs ws vs).1.length = cs.length := by
  intro cs
  induction cs with
  | nil => intro ws vs; cases ws <;> cases vs <;> simp [scan_node]
  | cons c cs ih =>
      intro ws vs
      cases ws with
      | nil => simp [scan_node]
      | cons w ws =>
          cases vs with
          | nil => simp [scan_node]
          | cons v vs => simp [scan_node, ih]

/-- With equal lengths, an updated candidate flag is true iff it was true and
the two playbacks at that position are equal. -/
theorem scan_node_get_true : ∀ (cs : List Bool) (ws vs : List (BinaryWaveform × Bool)) (i : Nat),
    cs.length = ws.length → vs.length = ws.length → i < ws.length →
    ((scan_node cs ws vs).1[i]? = some true ↔
      (cs[i]? = some true ∧ ws[i]? = vs[i]?)) := by
  intro cs ws vs i
  induction ws generalizing cs vs i with
  | nil => intro _ _ hi; simp at hi
  | cons w ws ih =>
      intro h1 h2 hi
      cases cs with
      | nil => simp at h1
      | cons c cs =>
          cases vs with
          | nil => simp at h2
          | cons v vs =>
              cases i with
              | zero => simp [scan_node, Bool.and_eq_true, beq_iff_eq]
              | succ i =>
                  have h1' : cs.length = ws.length := by simpa using h1
                  have h2' : vs.length = ws.length := by simpa using h2
                  have hi' : i < ws.length := by
                    simp only [List.length_cons] at hi; omega
                  simpa [scan_node] using ih cs vs i h1' h2' hi'

/-- Scanning the first member's playbacks against themselves keeps every
candidate and reports a remaining candidate iff there is at least one
position. -/
theorem scan_node_self (ws : List (BinaryWaveform × Bool)) :
    scan_node (List.replicate ws.length true) ws ws =
      (List.replicate ws.length true, !ws.isEmpty) := by
  induction ws with
  | nil => simp [scan_node]
  | cons w ws ih => simp [scan_node, List.replicate, ih]

/-- Replicated true flags read true at every in-range position. -/
theorem getElem?_replicate_true (n i : Nat) (h : i < n) :
    (List.replicate n true)[i]? = some true := by
  induction n generalizing i with
  | zero => omega
  | succ n ih =>
      cases i with
      | zero => simp [List.replicate]
      | succ i => simpa [List.replicate] using ih i (by omega)

/-- Characterization of a successful `find_sharable_go` run: the final vector
keeps its length, and a position is true iff it started true and every
scanned member agrees with the reference playbacks there. -/
theorem find_sharable_go_some_spec :
    ∀ (rest : List SEQCNode) (wps : List (BinaryWaveform × Bool)) (cands v : List Bool),
    cands.length = wps.length →
    (∀ m ∈ rest, m.iter_waveform_playbacks.length = wps.length) →
    find_sharable_go wps cands rest = some v →
    v.length = wps.length ∧
    (∀ i, i < wps.length →
      (v[i]? = some true ↔
        (cands[i]? = some true ∧
          ∀ m ∈ rest, m.iter_waveform_playbacks[i]? = wps[i]?))) := by
  intro rest
  induction rest with
  | nil =>
      intro wps cands v hlen _ hfind
      simp only [find_sharable_go, Option.some.injEq] at hfind
      subst hfind
      exact ⟨hlen, fun i _ => by simp⟩
  | cons node rest ih =>
      intro wps cands v hlen hmem hfind
      simp only [find_sharable_go] at hfind
      by_cases hleft : (scan_node cands wps node.iter_waveform_playbacks).2 = true
      · rw [if_pos hleft] at hfind
        have hlen' : (scan_node cands wps node.iter_waveform_playbacks).1.length = wps.length := by
          rw [scan_node_length]; exact hlen
        have hmem' : ∀ m ∈ rest, m.iter_waveform_playbacks.length = wps.length :=
          fun m hm => hmem m (List.mem_cons_of_mem _ hm)
        obtain ⟨hv, hiff⟩ := ih wps _ v hlen' hmem' hfind
        refine ⟨hv, fun i hi => ?_⟩
        rw [hiff i hi]
        have hnode : node.iter_waveform_playbacks.length = wps.length :=
          hmem node (List.mem_cons_self _ _)
        rw [scan_node_get_true cands wps node.iter_waveform_playbacks i hlen hnode hi]
        constructor
        · rintro ⟨⟨hc, hwv⟩, hall⟩
          refine ⟨hc, fun m hm => ?_⟩
          rcases List.mem_cons.mp hm with hm' | hm'
          · rw [hm']; exact hwv.symm
          · exact hall m hm'
        · rintro ⟨hc, hall⟩
          exact ⟨⟨hc, (hall node (List.mem_cons_self _ _)).symm⟩,
            fun m hm => hall m (List.mem_cons_of_mem _ hm)⟩
      · rw [if_neg hleft] at hfind; cases hfind

/-- Once `find_sharable_go` has short-circuited to `None` on a member
prefix, whatever members follow can never change the result. -/
theorem find_sharable_go_none_append :
    ∀ (rest : List SEQCNode) (wps : List (BinaryWaveform × Bool)) (cands : List Bool)
      (extra : List SEQCNode),
    find_sharable_go wps cands rest = none →
    find_sharable_go wps cands (rest ++ extra) = none := by
  intro rest
  induction rest with
  | nil => intro wps cands extra h; simp [find_sharable_go] at h
  | cons node rest ih =>
      intro wps cands extra h
      simp only [find_sharable_go, List.cons_append] at h ⊢
      by_cases hleft : (scan_node cands wps node.iter_waveform_playbacks).2 = true
      · rw [if_pos hleft] at h ⊢; exact ih _ _ _ h
      · rw [if_neg hleft]

/-- When every member carries exactly the reference playbacks and there is at
least one position, the scan never loses a candidate. -/
theorem find_sharable_go_all_agree :
    ∀ (rest : List SEQCNode) (ws : List (BinaryWaveform × Bool)),
    (∀ m ∈ rest, m.iter_waveform_playbacks = ws) → ws ≠ [] →
    find_sharable_go ws (List.replicate ws.length true) rest =
      some (List.replicate ws.length true) := by
  intro rest
  induction rest with
  | nil => intro ws _ _; simp [find_sharable_go]
  | cons node rest ih =>
      intro ws hall hne
      have hn : node.iter_waveform_playbacks = ws := hall node (List.mem_cons_self _ _)
      have hemp : ws.isEmpty = false := by
        cases ws with
        | nil => exact absurd rfl hne
        | cons a l => rfl
      simp only [find_sharable_go, hn, scan_node_self, hemp]
      simpa using ih ws (fun m hm => hall m (List.mem_cons_of_mem _ hm)) hne

/-- The C3 property of a cluster `first :: rest`: result-vector
characterization, short-circuit stability under appended members, the
all-agree case with at least one position, and the zero-position case. -/
def find_sharable_prop (first : SEQCNode) (rest : List SEQCNode) : Prop :=
  (∀ v, find_sharable_waveforms (first :: rest) = some v →
    v.length = first.iter_waveform_playbacks.length ∧
    ∀ i, i < first.iter_waveform_playbacks.length →
      (v[i]? = some true ↔
        ∀ m ∈ rest, m.iter_waveform_playbacks[i]? =
          first.iter_waveform_playbacks[i]?)) ∧
  (find_sharable_waveforms (first :: rest) = none →
    ∀ extra, find_sharable_waveforms (first :: (rest ++ extra)) = none) ∧
  ((∀ m ∈ rest, m.iter_waveform_playbacks = first.iter_waveform_playbacks) →
    first.iter_waveform_playbacks ≠ [] →
    find_sharable_waveforms (first :: rest) =
      some (List.replicate first.iter_waveform_playbacks.length true)) ∧
  (first.iter_waveform_playbacks = [] →
    find_sharable_waveforms (first :: rest) = none)

/-- C3 amended: for a cluster of at least two members whose playback counts
match the first member's, a returned vector is true at position i iff every
member's i-th playback equals the first member's i-th playback by full value
equality; a `None` result is stable under appending further (even invalid)
members, so nothing past the short-circuit point is examined; a cluster
agreeing at every one of its at-least-one positions yields the all-true
vector; and a cluster with zero playback positions yields the no-sharing
result. -/
theorem find_sharable_waveforms_spec (first : SEQCNode) (rest : List SEQCNode)
    (hne : rest ≠ [])
    (hlen : ∀ m ∈ rest,
      m.iter_waveform_playbacks.length = first.iter_waveform_playbacks.length) :
    find_sharable_prop first rest := by
  unfold find_sharable_prop
  refine ⟨?_, ?_, ?_, ?_⟩
  · intro v hfind
    have h := find_sharable_go_some_spec rest first.iter_waveform_playbacks
      (List.replicate first.iter_waveform_playbacks.length true) v (by simp) hlen
      (by simpa [find_sharable_waveforms] using hfind)
    refine ⟨h.1, fun i hi => ?_⟩
    rw [h.2 i hi]
    simp [getElem?_replicate_true _ _ hi]
  · intro hfind extra
    have h : find_sharable_go first.iter_waveform_playbacks
        (List.replicate first.iter_waveform_playbacks.length true) rest = none := by
      simpa [find_sharable_waveforms] using hfind
    simpa [find_sharable_waveforms] using
      find_sharable_go_none_append rest first.iter_waveform_playbacks _ extra h
  · intro hall hnonempty
    simpa [find_sharable_waveforms] using
      find_sharable_go_all_agree rest first.iter_waveform_playbacks hall hnonempty
  · intro hpb
    cases rest with
    | nil => exact absurd rfl hne
    | cons node rest' =>
        simp [find_sharable_waveforms, find_sharable_go, hpb, scan_node]

/-- C3 witness: the amended theorem applied to a two-member cluster of
identical single-playback scopes. -/
theorem find_sharable_waveforms_spec_witness :
    find_sharable_prop (SEQCNode.Scope [SEQCNode.WaveformPlayback bw1 false])
      [SEQCNode.Scope [SEQCNode.WaveformPlayback bw1 false]] :=
  find_sharable_waveforms_spec
    (SEQCNode.Scope [SEQCNode.WaveformPlayback bw1 false])
    [SEQCNode.Scope [SEQCNode.WaveformPlayback bw1 false]]
    (List.cons_ne_nil _ _) (by decide)

/-! ### C8: `same_stepping` as a partial equivalence -/

/-- `well_formed_list` is the pointwise invariant. -/
theorem well_formed_list_iff (ns : List SEQCNode) :
    SEQCNode.well_formed_list ns = true ↔ ∀ n ∈ ns, n.well_formed = true := by
  induction ns with
  | nil => simp [SEQCNode.well_formed_list]
  | cons n rest ih => simp [SEQCNode.well_formed_list, ih]

/-- Zip comparison against itself succeeds when every member is reflexive. -/
theorem same_stepping_zip_refl (ns : List SEQCNode)
    (h : ∀ n ∈ ns, n.same_stepping n = true) :
    SEQCNode.same_stepping_zip ns ns = true := by
  induction ns with
  | nil => simp [SEQCNode.same_stepping_zip]
  | cons n rest ih =>
      simp [SEQCNode.same_stepping_zip, h n (List.mem_cons_self _ _),
        ih (fun m hm => h m (List.mem_cons_of_mem _ hm))]

/-- Zip comparison flips when every left member compares symmetrically. -/
theorem same_stepping_zip_symm (ns : List SEQCNode)
    (h : ∀ n ∈ ns, ∀ m : SEQCNode, n.same_stepping m = m.same_stepping n) :
    ∀ ms : List SEQCNode,
      SEQCNode.same_stepping_zip ns ms = SEQCNode.same_stepping_zip ms ns := by
  induction ns with
  | nil => intro ms; cases ms <;> simp [SEQCNode.same_stepping_zip]
  | cons n rest ih =>
      intro ms
      cases ms with
      | nil => simp [SEQCNode.same_stepping_zip]
      | cons m ms' =>
          simp only [SEQCNode.same_stepping_zip]
          rw [h n (List.mem_cons_self _ _) m,
            ih (fun x hx => h x (List.mem_cons_of_mem _ hx)) ms']

/-- Reflexivity of `same_stepping` on well-formed nodes. -/
theorem same_stepping_refl : ∀ n : SEQCNode, n.well_formed = true →
    n.same_stepping n = true := by
  refine SEQCNode.size_ind ?_
  intro t ih
  cases t with
  | WaveformPlayback w sh =>
      intro _
      cases sh <;> simp [SEQCNode.same_stepping]
  | Scope ns =>
      intro hwf
      simp only [SEQCNode.well_formed] at hwf
      simp only [SEQCNode.same_stepping]
      refine same_stepping_zip_refl ns (fun n hn => ?_)
      have hsz : sizeOf n < sizeOf (SEQCNode.Scope ns) := by
        have := sizeOf_lt_of_mem hn
        simp only [SEQCNode.Scope.sizeOf_spec]
        omega
      exact ih n hsz ((well_formed_list_iff ns).mp hwf n hn)
  | Repeat c sc =>
      intro hwf
      simp only [SEQCNode.well_formed, Bool.and_eq_true] at hwf
      have hsz : sizeOf sc < sizeOf (SEQCNode.Repeat c sc) := by
        simp only [SEQCNode.Repeat.sizeOf_spec]; omega
      simp [SEQCNode.same_stepping, ih sc hsz hwf.2]
  | SteppingRepeat ns =>
      intro hwf
      simp only [SEQCNode.well_formed, Bool.and_eq_true] at hwf
      cases ns with
      | nil => simp [List.isEmpty] at hwf
      | cons n rest =>
          have hwfn : n.well_formed = true :=
            (well_formed_list_iff _).mp hwf.2 n (List.mem_cons_self _ _)
          have hsz : sizeOf n < sizeOf (SEQCNode.SteppingRepeat (n :: rest)) := by
            have := sizeOf_lt_of_mem (List.mem_cons_self n rest)
            simp only [SEQCNode.SteppingRepeat.sizeOf_spec]
            omega
          simp [SEQCNode.same_stepping, SEQCNode.same_stepping_head, ih n hsz hwfn]

/-- Boolean equality tests commute for lawful instances. -/
theorem beq_comm' {α : Type} [BEq α] [LawfulBEq α] (a b : α) : (a == b) = (b == a) := by
  cases hab : a == b <;> cases hba : b == a <;> simp_all

/-- Symmetry of `same_stepping` (on all variant pairs; the cross-type cases
are false on both sides). -/
theorem same_stepping_symm : ∀ a : SEQCNode, ∀ b : SEQCNode,
    a.same_stepping b = b.same_stepping a := by
  refine SEQCNode.size_ind ?_
  intro a ih
  intro b
  cases a with
  | WaveformPlayback w sh =>
      cases b with
      | WaveformPlayback w' sh' =>
          cases sh <;> cases sh' <;>
            simp [SEQCNode.same_stepping, Bool.and_comm, beq_iff_eq, eq_comm]
      | Scope ms => simp [SEQCNode.same_stepping]
      | Repeat c' sc' => simp [SEQCNode.same_stepping]
      | SteppingRepeat ms => simp [SEQCNode.same_stepping]
  | Scope ns =>
      cases b with
      | WaveformPlayback w' sh' => simp [SEQCNode.same_stepping]
      | Scope ms =>
          simp only [SEQCNode.same_stepping]
          refine same_stepping_zip_symm ns (fun n hn m => ?_) ms
          have hsz : sizeOf n < sizeOf (SEQCNode.Scope ns) := by
            have := sizeOf_lt_of_mem hn
            simp only [SEQCNode.Scope.sizeOf_spec]
            omega
          exact ih n hsz m
      | Repeat c' sc' => simp [SEQCNode.same_stepping]
      | SteppingRepeat ms => simp [SEQCNode.same_stepping]
  | Repeat c sc =>
      cases b with
      | WaveformPlayback w' sh' => simp [SEQCNode.same_stepping]
      | Scope ms => simp [SEQCNode.same_stepping]
      | Repeat c' sc' =>
          have hsz : sizeOf sc < sizeOf (SEQCNode.Repeat c sc) := by
            simp only [SEQCNode.Repeat.sizeOf_spec]; omega
          simp only [SEQCNode.same_stepping, ih sc hsz sc']
          rw [beq_comm' c c']
      | SteppingRepeat ms => simp [SEQCNode.same_stepping]
  | SteppingRepeat ns =>
      cases b with
      | WaveformPlayback w' sh' => simp [SEQCNode.same_stepping]
      | Scope ms => simp [SEQCNode.same_stepping]
      | Repeat c' sc' => simp [SEQCNode.same_stepping]
      | SteppingRepeat ms =>
          simp only [SEQCNode.same_stepping]
          have hhead : SEQCNode.same_stepping_head ns ms =
              SEQCNode.same_stepping_head ms ns := by
            cases ns with
            | nil => cases ms <;> simp [SEQCNode.same_stepping_head]
            | cons n rest =>
                cases ms with
                | nil => simp [SEQCNode.same_stepping_head]
                | cons m ms' =>
                    have hsz : sizeOf n < sizeOf (SEQCNode.SteppingRepeat (n :: rest)) := by
                      have := sizeOf_lt_of_mem (List.mem_cons_self n rest)
                      simp only [SEQCNode.SteppingRepeat.sizeOf_spec]
                      omega
                    simp [SEQCNode.same_stepping_head, ih n hsz m]
          rw [hhead, beq_comm' ns.length ms.length]

/-- Cross-variant `same_stepping` is always false. -/
theorem same_stepping_cross_type_false (a b : SEQCNode)
    (h : a.ctor_tag ≠ b.ctor_tag) : a.same_stepping b = false := by
  cases a <;> cases b <;>
    first
      | exact absurd rfl h
      | simp [SEQCNode.same_stepping]

/-- C8: `same_stepping` is reflexive on every node satisfying the data-model
invariant, symmetric on pairs (leaf, sequence and fixed-count-repeat pairs in
particular), and false across distinct variants. -/
theorem same_stepping_equiv_spec :
    (∀ n : SEQCNode, n.well_formed = true → n.same_stepping n = true) ∧
    (∀ a b : SEQCNode, a.same_stepping b = b.same_stepping a) ∧
    (∀ a b : SEQCNode, a.ctor_tag ≠ b.ctor_tag → a.same_stepping b = false) :=
  ⟨same_stepping_refl, same_stepping_symm, same_stepping_cross_type_false⟩

/-- C8 witness: reflexivity, symmetry and a cross-type comparison at concrete
nodes. -/
theorem same_stepping_equiv_spec_witness :
    (SEQCNode.Scope [SEQCNode.WaveformPlayback bw1 false]).same_stepping
        (SEQCNode.Scope [SEQCNode.WaveformPlayback bw1 false]) = true ∧
    (SEQCNode.WaveformPlayback bw1 false).same_stepping (SEQCNode.WaveformPlayback bw2 false) =
      (SEQCNode.WaveformPlayback bw2 false).same_stepping
        (SEQCNode.WaveformPlayback bw1 false) ∧
    (SEQCNode.WaveformPlayback bw1 false).same_stepping (SEQCNode.Scope []) = false :=
  ⟨same_stepping_equiv_spec.1 _ (by decide),
   same_stepping_equiv_spec.2.1 _ _,
   same_stepping_equiv_spec.2.2 _ _ (by decide)⟩

/-! ### C10: re-running emission -/

/-- One registration table extends another when both lists grow only at the
end (the manager never forgets or reorders registrations). -/
def mem_extends (M M' : WaveformMemory) : Prop :=
  (∃ s, M'.concatenated = M.concatenated ++ s) ∧ (∃ s, M'.shared = M.shared ++ s)

/-- `mem_extends` is reflexive. -/
theorem mem_extends_refl (M : WaveformMemory) : mem_extends M M :=
  ⟨⟨[], by simp⟩, ⟨[], by simp⟩⟩

/-- `mem_extends` is transitive. -/
theorem mem_extends_trans {M₁ M₂ M₃ : WaveformMemory}
    (h1 : mem_extends M₁ M₂) (h2 : mem_extends M₂ M₃) : mem_extends M₁ M₃ := by
  obtain ⟨⟨s1, hc1⟩, ⟨t1, hs1⟩⟩ := h1
  obtain ⟨⟨s2, hc2⟩, ⟨t2, hs2⟩⟩ := h2
  exact ⟨⟨s1 ++ s2, by rw [hc2, hc1, List.append_assoc]⟩,
    ⟨t1 ++ t2, by rw [hs2, hs1, List.append_assoc]⟩⟩

/-- A first-occurrence index survives appending entries at the end. -/
theorem mem_index_append_of_some (l : List BinaryWaveform) (wf : BinaryWaveform)
    (ext : List BinaryWaveform) (i : Nat) (h : mem_index l wf = some i) :
    mem_index (l ++ ext) wf = some i := by
  induction l generalizing i with
  | nil => simp [mem_index] at h
  | cons w ws ih =>
      simp only [mem_index, List.cons_append, List.append_eq] at h ⊢
      by_cases hw : w = wf
      · rw [if_pos hw] at h ⊢; exact h
      · rw [if_neg hw] at h ⊢
        rcases Option.map_eq_some'.mp h with ⟨j, hj, hji⟩
        rw [ih j hj]
        simp [hji]

/-- A fresh registration lands at the old length. -/
theorem mem_index_append_self (l : List BinaryWaveform) (wf : BinaryWaveform)
    (h : mem_index l wf = none) :
    mem_index (l ++ [wf]) wf = some l.length := by
  induction l with
  | nil => simp [mem_index]
  | cons w ws ih =>
      simp only [mem_index, List.cons_append, List.append_eq] at h ⊢
      by_cases hw : w = wf
      · rw [if_pos hw] at h; simp at h
      · rw [if_neg hw] at h ⊢
        have hns : mem_index ws wf = none := by
          cases hmi : mem_index ws wf
          · rfl
          · rw [hmi] at h; simp at h
        rw [ih hns]
        simp

/-- `request_concatenated` on a found value. -/
theorem request_concatenated_found (M : WaveformMemory) (wf : BinaryWaveform) (i : Nat)
    (h : mem_index M.concatenated wf = some i) :
    request_concatenated M wf = (concat_wave_name i, M) := by
  simp [request_concatenated, h]

/-- `request_concatenated` on a new value. -/
theorem request_concatenated_new (M : WaveformMemory) (wf : BinaryWaveform)
    (h : mem_index M.concatenated wf = none) :
    request_concatenated M wf =
      (concat_wave_name M.concatenated.length, ⟨M.concatenated ++ [wf], M.shared⟩) := by
  simp [request_concatenated, h]

/-- `request_shared` on a found value. -/
theorem request_shared_found (M : WaveformMemory) (wf : BinaryWaveform) (i : Nat)
    (h : mem_index M.shared wf = some i) :
    request_shared M wf = (shared_wave_name i, M) := by
  simp [request_shared, h]

/-- `request_shared` on a new value. -/
theorem request_shared_new (M : WaveformMemory) (wf : BinaryWaveform)
    (h : mem_index M.shared wf = none) :
    request_shared M wf =
      (shared_wave_name M.shared.length, ⟨M.concatenated, M.shared ++ [wf]⟩) := by
  simp [request_shared, h]

/-- Registration only appends. -/
theorem request_concatenated_extends (M : WaveformMemory) (wf : BinaryWaveform) :
    mem_extends M (request_concatenated M wf).2 := by
  cases hmi : mem_index M.concatenated wf with
  | none =>
      rw [request_concatenated_new M wf hmi]
      exact ⟨⟨[wf], rfl⟩, ⟨[], by simp⟩⟩
  | some i =>
      rw [request_concatenated_found M wf i hmi]
      exact mem_extends_refl M

/-- Shared registration only appends. -/
theorem request_shared_extends (M : WaveformMemory) (wf : BinaryWaveform) :
    mem_extends M (request_shared M wf).2 := by
  cases hmi : mem_index M.shared wf with
  | none =>
      rw [request_shared_new M wf hmi]
      exact ⟨⟨[], by simp⟩, ⟨[wf], rfl⟩⟩
  | some i =>
      rw [request_shared_found M wf i hmi]
      exact mem_extends_refl M

/-- Idempotence across runs: once a value has been registered, any later
request against any extension of that table returns the same identifier and
leaves the table unchanged. -/
theorem request_concatenated_stable (M : WaveformMemory) (wf : BinaryWaveform)
    (M' : WaveformMemory) (h : mem_extends (request_concatenated M wf).2 M') :
    request_concatenated M' wf = ((request_concatenated M wf).1, M') := by
  cases hmi : mem_index M.concatenated wf with
  | some i =>
      rw [request_concatenated_found M wf i hmi] at h ⊢
      rcases h.1 with ⟨s, hs⟩
      have hidx : mem_index M'.concatenated wf = some i := by
        rw [hs]; exact mem_index_append_of_some _ _ _ _ hmi
      rw [request_concatenated_found M' wf i hidx]
  | none =>
      rw [request_concatenated_new M wf hmi] at h ⊢
      rcases h.1 with ⟨s, hs⟩
      have hidx : mem_index M'.concatenated wf = some M.concatenated.length := by
        rw [hs]
        exact mem_index_append_of_some _ _ _ _ (mem_index_append_self _ _ hmi)
      rw [request_concatenated_found M' wf _ hidx]

/-- Idempotence across runs for shared requests. -/
theorem request_shared_stable (M : WaveformMemory) (wf : BinaryWaveform)
    (M' : WaveformMemory) (h : mem_extends (request_shared M wf).2 M') :
    request_shared M' wf = ((request_shared M wf).1, M') := by
  cases hmi : mem_index M.shared wf with
  | some i =>
      rw [request_shared_found M wf i hmi] at h ⊢
      rcases h.2 with ⟨s, hs⟩
      have hidx : mem_index M'.shared wf = some i := by
        rw [hs]; exact mem_index_append_of_some _ _ _ _ hmi
      rw [request_shared_found M' wf i hidx]
  | none =>
      rw [request_shared_new M wf hmi] at h ⊢
      rcases h.2 with ⟨s, hs⟩
      have hidx : mem_index M'.shared wf = some M.shared.length := by
        rw [hs]
        exact mem_index_append_of_some _ _ _ _ (mem_index_append_self _ _ hmi)
      rw [request_shared_found M' wf _ hidx]

/-- Visiting a list only appends, given that each member only appends. -/
theorem visit_list_extends_of (ns : List SEQCNode)
    (h : ∀ n ∈ ns, ∀ M, mem_extends M (n.visit_nodes M)) :
    ∀ M, mem_extends M (SEQCNode.visit_list ns M) := by
  induction ns with
  | nil => intro M; exact mem_extends_refl M
  | cons n rest ih =>
      intro M
      simp only [SEQCNode.visit_list]
      exact mem_extends_trans (h n (List.mem_cons_self _ _) M)
        (ih (fun m hm => h m (List.mem_cons_of_mem _ hm)) (n.visit_nodes M))

/-- The registration pass only appends to the manager's table. -/
theorem visit_nodes_extends : ∀ n : SEQCNode, ∀ M : WaveformMemory,
    mem_extends M (n.visit_nodes M) := by
  refine SEQCNode.size_ind ?_
  intro t ih
  cases t with
  | WaveformPlayback w sh =>
      intro M
      cases sh with
      | false => simpa [SEQCNode.visit_nodes] using request_concatenated_extends M w
      | true => simp [SEQCNode.visit_nodes]; exact mem_extends_refl M
  | Scope ns =>
      intro M
      simp only [SEQCNode.visit_nodes]
      refine visit_list_extends_of ns (fun n hn => ?_) M
      refine ih n ?_
      have := sizeOf_lt_of_mem hn
      simp only [SEQCNode.Scope.sizeOf_spec]
      omega
  | Repeat c sc =>
      intro M
      simp only [SEQCNode.visit_nodes]
      refine ih sc ?_ M
      simp only [SEQCNode.Repeat.sizeOf_spec]
      omega
  | SteppingRepeat ns =>
      intro M
      simp only [SEQCNode.visit_nodes]
      refine visit_list_extends_of ns (fun n hn => ?_) M
      refine ih n ?_
      have := sizeOf_lt_of_mem hn
      simp only [SEQCNode.SteppingRepeat.sizeOf_spec]
      omega

/-- Emitting a child list only appends, given that each member only
appends. -/
theorem scope_code_extends_of (ns : List SEQCNode)
    (h : ∀ n ∈ ns, ∀ (names : Nat → String) (lp pos : String) (adv : Bool) (s : EmitState),
      mem_extends s.memory (n.to_source_code names lp pos adv s).2.memory) :
    ∀ (names : Nat → String) (lp pos : String) (adv : Bool) (s : EmitState),
      mem_extends s.memory (SEQCNode.scope_code ns names lp pos adv s).2.memory := by
  induction ns with
  | nil => intro names lp pos adv s; exact mem_extends_refl _
  | cons n rest ih =>
      intro names lp pos adv s
      simp only [SEQCNode.scope_code]
      exact mem_extends_trans (h n (List.mem_cons_self _ _) names lp pos adv s)
        (ih (fun m hm => h m (List.mem_cons_of_mem _ hm)) names lp pos adv _)

/-- Emission only appends to the manager's table. -/
theorem to_source_code_extends : ∀ t : SEQCNode,
    ∀ (names : Nat → String) (lp pos : String) (adv : Bool) (s : EmitState),
      mem_extends s.memory (t.to_source_code names lp pos adv s).2.memory := by
  refine SEQCNode.size_ind ?_
  intro t ih
  cases t with
  | WaveformPlayback w sh =>
      intro names lp pos adv s
      cases sh with
      | false => simpa [SEQCNode.to_source_code] using request_concatenated_extends s.memory w
      | true => simpa [SEQCNode.to_source_code] using request_shared_extends s.memory w
  | Scope ns =>
      intro names lp pos adv s
      simp only [SEQCNode.to_source_code]
      refine scope_code_extends_of ns (fun n hn => ?_) names lp pos adv s
      refine ih n ?_
      have := sizeOf_lt_of_mem hn
      simp only [SEQCNode.Scope.sizeOf_spec]
      omega
  | Repeat c sc =>
      intro names lp pos adv s
      have hsc : ∀ (names : Nat → String) (lp pos : String) (adv : Bool) (s : EmitState),
          mem_extends s.memory (sc.to_source_code names lp pos adv s).2.memory := by
        refine ih sc ?_
        simp only [SEQCNode.Repeat.sizeOf_spec]
        omega
      cases adv with
      | false =>
          simpa [SEQCNode.to_source_code] using
            hsc names (lp ++ INDENTATION) pos true ⟨s.counter + 1, s.memory⟩
      | true =>
          cases hstore : (SEQCNode.Repeat c sc).stores_initial_pos with
          | false =>
              simpa [SEQCNode.to_source_code, hstore] using
                hsc names (lp ++ INDENTATION) pos false s
          | true =>
              simpa [SEQCNode.to_source_code, hstore] using
                hsc names (lp ++ INDENTATION) pos true ⟨s.counter + 1, s.memory⟩
  | SteppingRepeat ns =>
      intro names lp pos adv s
      cases ns with
      | nil => simp [SEQCNode.to_source_code]; exact mem_extends_refl _
      | cons n rest =>
          have hn : ∀ (names : Nat → String) (lp pos : String) (adv : Bool) (s : EmitState),
              mem_extends s.memory (n.to_source_code names lp pos adv s).2.memory := by
            refine ih n ?_
            have := sizeOf_lt_of_mem (List.mem_cons_self n rest)
            simp only [SEQCNode.SteppingRepeat.sizeOf_spec]
            omega
          have hrest : ∀ M, mem_extends M (SEQCNode.visit_list rest M) := by
            refine visit_list_extends_of rest (fun m hm => visit_nodes_extends m)
          simp only [SEQCNode.to_source_code]
          exact mem_extends_trans (hn names (lp ++ INDENTATION) pos adv s)
            (hrest (n.to_source_code names (lp ++ INDENTATION) pos adv s).2.memory)

/-- Replaying the registration pass over a list against a table that already
extends its own result changes nothing. -/
theorem visit_list_replay_of (ns : List SEQCNode)
    (h : ∀ n ∈ ns, ∀ M M' : WaveformMemory,
      mem_extends (n.visit_nodes M) M' → n.visit_nodes M' = M') :
    ∀ M M' : WaveformMemory,
      mem_extends (SEQCNode.visit_list ns M) M' → SEQCNode.visit_list ns M' = M' := by
  induction ns with
  | nil => intro M M' _; rfl
  | cons n rest ih =>
      intro M M' hext
      simp only [SEQCNode.visit_list] at hext ⊢
      have h1 : mem_extends (n.visit_nodes M) M' :=
        mem_extends_trans
          (visit_list_extends_of rest (fun m _ => visit_nodes_extends m) (n.visit_nodes M))
          hext
      rw [h n (List.mem_cons_self _ _) M M' h1]
      exact ih (fun m hm => h m (List.mem_cons_of_mem _ hm)) (n.visit_nodes M) M' hext

/-- Replaying a child-list emission against a table that already extends its
own result reproduces the same lines and counter and leaves the table
untouched. -/
theorem scope_code_replay_of (ns : List SEQCNode)
    (h : ∀ n ∈ ns, ∀ (names : Nat → String) (lp pos : String) (adv : Bool) (c : Nat)
      (M M' : WaveformMemory),
      mem_extends (n.to_source_code names lp pos adv ⟨c, M⟩).2.memory M' →
      n.to_source_code names lp pos adv ⟨c, M'⟩ =
        ((n.to_source_code names lp pos adv ⟨c, M⟩).1,
          ⟨(n.to_source_code names lp pos adv ⟨c, M⟩).2.counter, M'⟩)) :
    ∀ (names : Nat → String) (lp pos : String) (adv : Bool) (c : Nat)
      (M M' : WaveformMemory),
      mem_extends (SEQCNode.scope_code ns names lp pos adv ⟨c, M⟩).2.memory M' →
      SEQCNode.scope_code ns names lp pos adv ⟨c, M'⟩ =
        ((SEQCNode.scope_code ns names lp pos adv ⟨c, M⟩).1,
          ⟨(SEQCNode.scope_code ns names lp pos adv ⟨c, M⟩).2.counter, M'⟩) := by
  induction ns with
  | nil => intro names lp pos adv c M M' _; simp [SEQCNode.scope_code]
  | cons n rest ih =>
      intro names lp pos adv c M M' hext
      simp only [SEQCNode.scope_code] at hext ⊢
      have h1 : mem_extends (n.to_source_code names lp pos adv ⟨c, M⟩).2.memory M' :=
        mem_extends_trans
          (scope_code_extends_of rest (fun m _ => to_source_code_extends m) names lp pos adv
            (n.to_source_code names lp pos adv ⟨c, M⟩).2)
          hext
      rw [h n (List.mem_cons_self _ _) names lp pos adv c M M' h1]
      rw [ih (fun m hm => h m (List.mem_cons_of_mem _ hm)) names lp pos adv
        (n.to_source_code names lp pos adv ⟨c, M⟩).2.counter
        (n.to_source_code names lp pos adv ⟨c, M⟩).2.memory M' hext]

/-- Replay: running emission (or the registration pass) again, starting from
any table extending the first run's final table and from the same name
counter, reproduces exactly the first run's lines and final counter, and
leaves the table unchanged. -/
theorem replay_main : ∀ t : SEQCNode,
    (∀ (names : Nat → String) (lp pos : String) (adv : Bool) (c : Nat)
      (M M' : WaveformMemory),
      mem_extends (t.to_source_code names lp pos adv ⟨c, M⟩).2.memory M' →
      t.to_source_code names lp pos adv ⟨c, M'⟩ =
        ((t.to_source_code names lp pos adv ⟨c, M⟩).1,
          ⟨(t.to_source_code names lp pos adv ⟨c, M⟩).2.counter, M'⟩)) ∧
    (∀ M M' : WaveformMemory,
      mem_extends (t.visit_nodes M) M' → t.visit_nodes M' = M') := by
  refine SEQCNode.size_ind ?_
  intro t ih
  cases t with
  | WaveformPlayback w sh =>
      refine ⟨?_, ?_⟩
      · intro names lp pos adv c M M' hext
        cases sh with
        | true =>
            have hst := request_shared_stable M w M'
              (by simpa [SEQCNode.to_source_code] using hext)
            simp [SEQCNode.to_source_code, hst]
        | false =>
            have hst := request_concatenated_stable M w M'
              (by simpa [SEQCNode.to_source_code] using hext)
            simp [SEQCNode.to_source_code, hst]
      · intro M M' hext
        cases sh with
        | true => simp [SEQCNode.visit_nodes]
        | false =>
            have hst := request_concatenated_stable M w M'
              (by simpa [SEQCNode.visit_nodes] using hext)
            simp [SEQCNode.visit_nodes, hst]
  | Scope ns =>
      have hsz : ∀ n ∈ ns, sizeOf n < sizeOf (SEQCNode.Scope ns) := by
        intro n hn
        have := sizeOf_lt_of_mem hn
        simp only [SEQCNode.Scope.sizeOf_spec]
        omega
      refine ⟨?_, ?_⟩
      · intro names lp pos adv c M M' hext
        have := scope_code_replay_of ns (fun n hn => (ih n (hsz n hn)).1)
          names lp pos adv c M M' (by simpa [SEQCNode.to_source_code] using hext)
        simpa [SEQCNode.to_source_code] using this
      · intro M M' hext
        have := visit_list_replay_of ns (fun n hn => (ih n (hsz n hn)).2)
          M M' (by simpa [SEQCNode.visit_nodes] using hext)
        simpa [SEQCNode.visit_nodes] using this
  | Repeat c₀ sc =>
      have hsz : sizeOf sc < sizeOf (SEQCNode.Repeat c₀ sc) := by
        simp only [SEQCNode.Repeat.sizeOf_spec]; omega
      refine ⟨?_, ?_⟩
      · intro names lp pos adv c M M' hext
        cases adv with
        | false =>
            have hb := (ih sc hsz).1 names (lp ++ INDENTATION) pos true (c + 1) M M'
              (by simpa [SEQCNode.to_source_code] using hext)
            simp [SEQCNode.to_source_code, hb]
        | true =>
            cases hstore : (SEQCNode.Repeat c₀ sc).stores_initial_pos with
            | false =>
                have hb := (ih sc hsz).1 names (lp ++ INDENTATION) pos false c M M'
                  (by simpa [SEQCNode.to_source_code, hstore] using hext)
                simp [SEQCNode.to_source_code, hstore, hb]
            | true =>
                have hb := (ih sc hsz).1 names (lp ++ INDENTATION) pos true (c + 1) M M'
                  (by simpa [SEQCNode.to_source_code, hstore] using hext)
                simp [SEQCNode.to_source_code, hstore, hb]
      · intro M M' hext
        have := (ih sc hsz).2 M M' (by simpa [SEQCNode.visit_nodes] using hext)
        simpa [SEQCNode.visit_nodes] using this
  | SteppingRepeat ns =>
      have hsz : ∀ n ∈ ns, sizeOf n < sizeOf (SEQCNode.SteppingRepeat ns) := by
        intro n hn
        have := sizeOf_lt_of_mem hn
        simp only [SEQCNode.SteppingRepeat.sizeOf_spec]
        omega
      refine ⟨?_, ?_⟩
      · intro names lp pos adv c M M' hext
        cases ns with
        | nil =>
            simp only [SEQCNode.to_source_code] at hext ⊢
        | cons n rest =>
            have h1 : mem_extends
                (n.to_source_code names (lp ++ INDENTATION) pos adv ⟨c, M⟩).2.memory M' := by
              refine mem_extends_trans
                (visit_list_extends_of rest (fun m _ => visit_nodes_extends m) _)
                (by simpa [SEQCNode.to_source_code] using hext)
            have hn := (ih n (hsz n (List.mem_cons_self _ _))).1 names (lp ++ INDENTATION)
              pos adv c M M' h1
            have hv := visit_list_replay_of rest
              (fun m hm => (ih m (hsz m (List.mem_cons_of_mem _ hm))).2)
              (n.to_source_code names (lp ++ INDENTATION) pos adv ⟨c, M⟩).2.memory M'
              (by simpa [SEQCNode.to_source_code] using hext)
            simp [SEQCNode.to_source_code, hn, hv]
      · intro M M' hext
        have := visit_list_replay_of ns (fun n hn => (ih n (hsz n hn)).2)
          M M' (by simpa [SEQCNode.visit_nodes] using hext)
        simpa [SEQCNode.visit_nodes] using this

/-- C10: re-running emission on the same already-lowered tree (a fresh name
counter, the manager table left by the first run) reproduces the first run
byte for byte — the same line list, the same final counter, and no new
registrations. -/
theorem to_source_code_rerun_deterministic (t : SEQCNode) (names : Nat → String)
    (lp pos : String) (adv : Bool) (cnt : Nat) (M : WaveformMemory) :
    t.to_source_code names lp pos adv
        ⟨cnt, (t.to_source_code names lp pos adv ⟨cnt, M⟩).2.memory⟩ =
      t.to_source_code names lp pos adv ⟨cnt, M⟩ := by
  rw [(replay_main t).1 names lp pos adv cnt M
    (t.to_source_code names lp pos adv ⟨cnt, M⟩).2.memory (mem_extends_refl _)]

/-! ### C6: the lowering driver never builds degenerate repeats -/

/-- `repeat_counts_ok_list` is the pointwise property. -/
theorem repeat_counts_ok_list_iff (ns : List SEQCNode) :
    SEQCNode.repeat_counts_ok_list ns = true ↔
      ∀ n ∈ ns, n.repeat_counts_ok = true := by
  induction ns with
  | nil => simp [SEQCNode.repeat_counts_ok_list]
  | cons n rest ih => simp [SEQCNode.repeat_counts_ok_list, ih]

/-- Marking shared flags never touches a repetition count. -/
theorem mark_list_preserves_ok_of (ns : List SEQCNode)
    (h : ∀ n ∈ ns, ∀ fs : List Bool,
      n.repeat_counts_ok = true → (mark_node n fs).1.repeat_counts_ok = true) :
    ∀ fs : List Bool, SEQCNode.repeat_counts_ok_list ns = true →
      SEQCNode.repeat_counts_ok_list (mark_list ns fs).1 = true := by
  induction ns with
  | nil => intro fs _; simp [mark_list, SEQCNode.repeat_counts_ok_list]
  | cons n rest ih =>
      intro fs hok
      simp only [SEQCNode.repeat_counts_ok_list, Bool.and_eq_true] at hok
      simp only [mark_list, SEQCNode.repeat_counts_ok_list, Bool.and_eq_true]
      exact ⟨h n (List.mem_cons_self _ _) fs hok.1,
        ih (fun m hm => h m (List.mem_cons_of_mem _ hm)) _ hok.2⟩

/-- Marking preserves `repeat_counts_ok`. -/
theorem mark_node_preserves_ok : ∀ n : SEQCNode, ∀ fs : List Bool,
    n.repeat_counts_ok = true → (mark_node n fs).1.repeat_counts_ok = true := by
  refine SEQCNode.size_ind ?_
  intro t ih
  cases t with
  | WaveformPlayback w sh =>
      intro fs _
      cases fs <;> simp [mark_node, SEQCNode.repeat_counts_ok]
  | Scope ns =>
      intro fs hok
      simp only [SEQCNode.repeat_counts_ok] at hok
      simp only [mark_node, SEQCNode.repeat_counts_ok]
      refine mark_list_preserves_ok_of ns (fun n hn => ?_) fs hok
      refine ih n ?_
      have := sizeOf_lt_of_mem hn
      simp only [SEQCNode.Scope.sizeOf_spec]
      omega
  | Repeat c sc =>
      intro fs hok
      simp only [SEQCNode.repeat_counts_ok, Bool.and_eq_true] at hok
      simp only [mark_node, SEQCNode.repeat_counts_ok, Bool.and_eq_true]
      refine ⟨hok.1, ?_⟩
      refine ih sc ?_ fs hok.2
      simp only [SEQCNode.Repeat.sizeOf_spec]
      omega
  | SteppingRepeat ns =>
      intro fs hok
      simp only [SEQCNode.repeat_counts_ok] at hok
      simp only [mark_node, SEQCNode.repeat_counts_ok]
      refine mark_list_preserves_ok_of ns (fun n hn => ?_) fs hok
      refine ih n ?_
      have := sizeOf_lt_of_mem hn
      simp only [SEQCNode.SteppingRepeat.sizeOf_spec]
      omega

/-- Every node a cluster pass emits keeps `repeat_counts_ok`. -/
theorem process_clusters_ok (mfl msw : Nat) : ∀ cls : List (List SEQCNode),
    (∀ cl ∈ cls, ∀ n ∈ cl, n.repeat_counts_ok = true) →
    ∀ n ∈ process_clusters mfl msw cls, n.repeat_counts_ok = true := by
  intro cls
  induction cls with
  | nil => intro _ n hn; simp [process_clusters] at hn
  | cons cluster rest ih =>
      intro hok n hn
      simp only [process_clusters, List.mem_append] at hn
      rcases hn with hn | hn
      · have hcl : ∀ m ∈ cluster, m.repeat_counts_ok = true :=
          hok cluster (List.mem_cons_self _ _)
        by_cases hsmall : cluster.length < mfl
        · rw [if_pos hsmall] at hn
          exact hcl n hn
        · rw [if_neg hsmall] at hn
          simp only [List.mem_singleton] at hn
          subst hn
          simp only [SEQCNode.repeat_counts_ok]
          rw [repeat_counts_ok_list_iff]
          by_cases hshare : msw ≤ cluster.length
          · rw [if_pos hshare]
            cases hfs : find_sharable_waveforms cluster with
            | none => exact hcl
            | some flags =>
                by_cases hfe : flags.isEmpty
                · simp only [hfe, if_true]
                  exact hcl
                · simp only [hfe, if_false, Bool.false_eq_true]
                  intro m hm
                  rcases List.mem_map.mp hm with ⟨m₀, hm₀, hmk⟩
                  rw [← hmk]
                  exact mark_node_preserves_ok m₀ flags (hcl m₀ hm₀)
          · rw [if_neg hshare]
            exact hcl
      · exact ih (fun cl hcl => hok cl (List.mem_cons_of_mem _ hcl)) n hn

/-- The checked repeat constructor preserves `repeat_counts_ok`. -/
theorem Repeat_init_ok (rc : Nat) (node t : SEQCNode) (h : Repeat_init rc node = some t)
    (hn : node.repeat_counts_ok = true) : t.repeat_counts_ok = true := by
  unfold Repeat_init at h
  by_cases h1 : 1 < rc
  · rw [if_pos h1] at h
    injection h with h
    subst h
    simp [SEQCNode.repeat_counts_ok, h1, hn]
  · rw [if_neg h1] at h
    cases h

/-- Bounded-size induction for the mutual lowering functions: whatever the
driver or its clustering helpers successfully produce satisfies
`repeat_counts_ok`. -/
theorem lowering_ok_aux {α : Type} (mfl msw : Nat) (w2b : α → BinaryWaveform) :
    ∀ k : Nat,
      (∀ l : Loop α, sizeOf l < k →
        (∀ t, lowered_content mfl msw w2b l = some t → t.repeat_counts_ok = true) ∧
        (∀ t, loop_to_seqc mfl msw w2b l = some t → t.repeat_counts_ok = true)) ∧
      (∀ ls : List (Loop α), sizeOf ls < k →
        (∀ cls, to_node_clusters mfl msw w2b ls = some cls →
          ∀ cl ∈ cls, ∀ n ∈ cl, n.repeat_counts_ok = true) ∧
        (∀ (last_node : SEQCNode) (cur : List SEQCNode) (acc : List (List SEQCNode))
            (cls : List (List SEQCNode)),
          (∀ n ∈ cur, n.repeat_counts_ok = true) →
          (∀ cl ∈ acc, ∀ n ∈ cl, n.repeat_counts_ok = true) →
          clusters_go mfl msw w2b last_node cur acc ls = some cls →
          ∀ cl ∈ cls, ∀ n ∈ cl, n.repeat_counts_ok = true)) := by
  intro k
  induction k with
  | zero =>
      constructor
      · intro l hl; omega
      · intro ls hls; omega
  | succ k ih =>
      obtain ⟨ihL, ihls⟩ := ih
      constructor
      · intro l hl
        have hP2 : ∀ t, lowered_content mfl msw w2b l = some t →
            t.repeat_counts_ok = true := by
          cases l with
          | leaf rc wf =>
              intro t ht
              simp only [lowered_content, Option.some.injEq] at ht
              subst ht
              simp [SEQCNode.repeat_counts_ok]
          | node rc children =>
              cases children with
              | nil => intro t ht; simp [lowered_content] at ht
              | cons c cs =>
                  cases cs with
                  | nil =>
                      intro t ht
                      simp only [lowered_content] at ht
                      have hc : sizeOf c < k := by
                        simp only [Loop.node.sizeOf_spec, List.cons.sizeOf_spec,
                          List.nil.sizeOf_spec] at hl
                        omega
                      exact (ihL c hc).2 t ht
                  | cons c₂ cs₂ =>
                      intro t ht
                      simp only [lowered_content] at ht
                      cases hnc : to_node_clusters mfl msw w2b (c :: c₂ :: cs₂) with
                      | none => rw [hnc] at ht; cases ht
                      | some clusters =>
                          rw [hnc] at ht
                          simp only [Option.some.injEq] at ht
                          subst ht
                          have hsz : sizeOf (c :: c₂ :: cs₂) < k := by
                            simp only [Loop.node.sizeOf_spec] at hl
                            omega
                          have hcl := (ihls (c :: c₂ :: cs₂) hsz).1 clusters hnc
                          simp only [SEQCNode.repeat_counts_ok]
                          rw [repeat_counts_ok_list_iff]
                          exact process_clusters_ok mfl msw clusters hcl
        have hP1 : ∀ t, loop_to_seqc mfl msw w2b l = some t →
            t.repeat_counts_ok = true := by
          intro t ht
          simp only [loop_to_seqc] at ht
          by_cases hm : mfl ≤ msw
          · rw [if_pos hm] at ht
            cases hlc : lowered_content mfl msw w2b l with
            | none => rw [hlc] at ht; cases ht
            | some node =>
                simp only [hlc] at ht
                by_cases hrc : l.repetition_count ≠ 1
                · rw [if_pos hrc] at ht
                  exact Repeat_init_ok _ _ _ ht (hP2 node hlc)
                · rw [if_neg hrc] at ht
                  injection ht with ht
                  subst ht
                  exact hP2 node hlc
          · rw [if_neg hm] at ht
            cases ht
        exact ⟨hP2, hP1⟩
      · intro ls hls
        have hP4 : ∀ (last_node : SEQCNode) (cur : List SEQCNode)
            (acc : List (List SEQCNode)) (cls : List (List SEQCNode)),
            (∀ n ∈ cur, n.repeat_counts_ok = true) →
            (∀ cl ∈ acc, ∀ n ∈ cl, n.repeat_counts_ok = true) →
            clusters_go mfl msw w2b last_node cur acc ls = some cls →
            ∀ cl ∈ cls, ∀ n ∈ cl, n.repeat_counts_ok = true := by
          cases ls with
          | nil =>
              intro last_node cur acc cls hcur hacc hgo
              simp only [clusters_go, Option.some.injEq] at hgo
              subst hgo
              intro cl hcl n hn
              rcases List.mem_append.mp hcl with hcl' | hcl'
              · exact hacc cl hcl' n hn
              · rw [List.mem_singleton.mp hcl'] at hn
                exact hcur n hn
          | cons ch rest =>
              intro last_node cur acc cls hcur hacc hgo
              simp only [clusters_go] at hgo
              cases hlc : loop_to_seqc mfl msw w2b ch with
              | none => rw [hlc] at hgo; cases hgo
              | some cur_node =>
                  simp only [hlc] at hgo
                  have hch : sizeOf ch < k := by
                    simp only [List.cons.sizeOf_spec] at hls
                    omega
                  have hok : cur_node.repeat_counts_ok = true :=
                    (ihL ch hch).2 cur_node hlc
                  have hrest : sizeOf rest < k := by
                    simp only [List.cons.sizeOf_spec] at hls
                    omega
                  by_cases hss : last_node.same_stepping cur_node = true
                  · rw [if_pos hss] at hgo
                    refine (ihls rest hrest).2 cur_node (cur ++ [cur_node]) acc cls
                      ?_ hacc hgo
                    intro n hn
                    rcases List.mem_append.mp hn with hn' | hn'
                    · exact hcur n hn'
                    · rw [List.mem_singleton.mp hn']
                      exact hok
                  · rw [if_neg hss] at hgo
                    refine (ihls rest hrest).2 cur_node [cur_node] (acc ++ [cur]) cls
                      ?_ ?_ hgo
                    · intro n hn
                      rw [List.mem_singleton.mp hn]
                      exact hok
                    · intro cl hcl n hn
                      rcases List.mem_append.mp hcl with hcl' | hcl'
                      · exact hacc cl hcl' n hn
                      · rw [List.mem_singleton.mp hcl'] at hn
                        exact hcur n hn
        have hP3 : ∀ cls, to_node_clusters mfl msw w2b ls = some cls →
            ∀ cl ∈ cls, ∀ n ∈ cl, n.repeat_counts_ok = true := by
          cases ls with
          | nil => intro cls h; simp [to_node_clusters] at h
          | cons c cs =>
              cases cs with
              | nil => intro cls h; simp [to_node_clusters] at h
              | cons c₂ cs₂ =>
                  intro cls h
                  simp only [to_node_clusters] at h
                  cases hlc : loop_to_seqc mfl msw w2b c with
                  | none => rw [hlc] at h; cases h
                  | some first =>
                      simp only [hlc] at h
                      have hc : sizeOf c < k := by
                        simp only [List.cons.sizeOf_spec] at hls
                        omega
                      have hfirst : first.repeat_counts_ok = true :=
                        (ihL c hc).2 first hlc
                      have htail : sizeOf (c₂ :: cs₂) < k := by
                        simp only [List.cons.sizeOf_spec] at hls ⊢
                        omega
                      exact (ihls (c₂ :: cs₂) htail).2 first [first] [] cls
                        (fun n hn => by rw [List.mem_singleton.mp hn]; exact hfirst)
                        (fun cl hcl => absurd hcl (List.not_mem_nil cl)) h
        exact ⟨hP3, hP4⟩

/-- C6 counterexample: a count-0 leaf loop does not lower to the unwrapped
content — the driver wraps with the checked repeat constructor, whose
`count > 1` assertion fails, although the content itself lowers fine. -/
theorem loop_to_seqc_count_zero_counterexample :
    loop_to_seqc 1 1 (fun w : BinaryWaveform => w) (Loop.leaf 0 bw1) = none ∧
    lowered_content 1 1 (fun w : BinaryWaveform => w) (Loop.leaf 0 bw1) =
      some (SEQCNode.WaveformPlayback bw1 false) := by
  constructor
  · simp [loop_to_seqc, lowered_content, Loop.repetition_count, Repeat_init]
  · simp [lowered_content]

/-- C6 amended: a count-0 loop makes lowering fail on the repeat
constructor's `count > 1` precondition (it is not returned unwrapped); a
count-1 loop is returned as its lowered content with no wrapper; and every
fixed-count repeat in any successfully lowered tree has count strictly
greater than 1. -/
theorem loop_to_seqc_wrap_spec {α : Type} (mfl msw : Nat) (w2b : α → BinaryWaveform) :
    (∀ l : Loop α, l.repetition_count = 0 → loop_to_seqc mfl msw w2b l = none) ∧
    (∀ l : Loop α, l.repetition_count = 1 → mfl ≤ msw →
      loop_to_seqc mfl msw w2b l = lowered_content mfl msw w2b l) ∧
    (∀ (l : Loop α) (t : SEQCNode), loop_to_seqc mfl msw w2b l = some t →
      t.repeat_counts_ok = true) := by
  refine ⟨?_, ?_, ?_⟩
  · intro l h0
    simp only [loop_to_seqc]
    by_cases hm : mfl ≤ msw
    · rw [if_pos hm]
      cases hlc : lowered_content mfl msw w2b l with
      | none => rfl
      | some node => simp [h0, Repeat_init]
    · rw [if_neg hm]
  · intro l h1 hm
    simp only [loop_to_seqc]
    rw [if_pos hm]
    cases hlc : lowered_content mfl msw w2b l with
    | none => rfl
    | some node => simp [h1]
  · intro l t ht
    exact ((lowering_ok_aux mfl msw w2b (sizeOf l + 1)).1 l (by omega)).2 t ht

/-- C6 witness: the three parts at concrete loops — a count-0 leaf fails, a
count-1 leaf is returned unwrapped, and a count-2 leaf lowers to a tree
whose repeat counts all exceed 1. -/
theorem loop_to_seqc_wrap_spec_witness :
    loop_to_seqc 1 1 (fun w : BinaryWaveform => w) (Loop.leaf 0 bw2) = none ∧
    loop_to_seqc 1 1 (fun w : BinaryWaveform => w) (Loop.leaf 1 bw2) =
      lowered_content 1 1 (fun w : BinaryWaveform => w) (Loop.leaf 1 bw2) ∧
    (SEQCNode.Repeat 2 (SEQCNode.WaveformPlayback bw2 false)).repeat_counts_ok = true :=
  ⟨(loop_to_seqc_wrap_spec 1 1 (fun w : BinaryWaveform => w)).1 (Loop.leaf 0 bw2) rfl,
   (loop_to_seqc_wrap_spec 1 1 (fun w : BinaryWaveform => w)).2.1 (Loop.leaf 1 bw2) rfl
     (by omega),
   (loop_to_seqc_wrap_spec 1 1 (fun w : BinaryWaveform => w)).2.2 (Loop.leaf 2 bw2)
     (SEQCNode.Repeat 2 (SEQCNode.WaveformPlayback bw2 false))
     (by simp [loop_to_seqc, lowered_content, Loop.repetition_count, Repeat_init])⟩
